import Mathlib

/-!
Verification of the AABB module of the bvh repository (src/aabb.rs).

The f32 values of the source are modelled exactly: a value is NaN, minus
infinity, a finite value (an exact rational; rounding is ignored), or plus
infinity.  The IEEE 754 rules for the special values are kept: NaN
propagates through arithmetic, comparisons involving NaN are false,
infinity minus infinity and zero times infinity are NaN, and the min/max
used by the source (Rust f32 min/max) ignore a NaN argument.  Signed zero
is collapsed to the single rational zero; the reciprocal of zero is taken
to be plus infinity, matching 1.0/0.0 on the positive zero.
-/

/-- Model of an f32 value: NaN, minus infinity, a finite (exact rational)
value, or plus infinity. -/
inductive EF where
  | nan : EF
  | ninf : EF
  | fin (q : ℚ) : EF
  | pinf : EF
  deriving DecidableEq, Repr

namespace EF

/-- IEEE comparison a <= b: false whenever either side is NaN. -/
def le : EF → EF → Bool
  | nan, _ => false
  | _, nan => false
  | ninf, _ => true
  | _, ninf => false
  | _, pinf => true
  | pinf, _ => false
  | fin a, fin b => decide (a ≤ b)

/-- IEEE comparison a < b: false whenever either side is NaN. -/
def lt : EF → EF → Bool
  | nan, _ => false
  | _, nan => false
  | ninf, ninf => false
  | ninf, _ => true
  | _, ninf => false
  | pinf, _ => false
  | _, pinf => true
  | fin a, fin b => decide (a < b)

/-- IEEE negation. -/
def neg : EF → EF
  | nan => nan
  | ninf => pinf
  | pinf => ninf
  | fin a => fin (-a)

/-- IEEE addition: NaN propagates, opposite infinities give NaN. -/
def add : EF → EF → EF
  | nan, _ => nan
  | _, nan => nan
  | fin a, fin b => fin (a + b)
  | pinf, ninf => nan
  | ninf, pinf => nan
  | pinf, _ => pinf
  | _, pinf => pinf
  | ninf, _ => ninf
  | _, ninf => ninf

/-- IEEE subtraction, as addition of the negation. -/
def sub (a b : EF) : EF := add a (neg b)

/-- IEEE multiplication: NaN propagates, zero times infinity is NaN. -/
def mul : EF → EF → EF
  | nan, _ => nan
  | _, nan => nan
  | fin a, fin b => fin (a * b)
  | fin a, pinf => if 0 < a then pinf else if a < 0 then ninf else nan
  | fin a, ninf => if 0 < a then ninf else if a < 0 then pinf else nan
  | pinf, fin b => if 0 < b then pinf else if b < 0 then ninf else nan
  | ninf, fin b => if 0 < b then ninf else if b < 0 then pinf else nan
  | pinf, pinf => pinf
  | pinf, ninf => ninf
  | ninf, pinf => ninf
  | ninf, ninf => pinf

/-- Reciprocal 1/x.  The reciprocal of (unsigned) zero is plus infinity
and the reciprocal of an infinity is zero, as in IEEE 754. -/
def inv : EF → EF
  | nan => nan
  | pinf => fin 0
  | ninf => fin 0
  | fin a => if a = 0 then pinf else fin (1 / a)

/-- Rust f32 min: the smaller argument; if one argument is NaN the other
is returned. -/
def rmin : EF → EF → EF
  | nan, b => b
  | a, nan => a
  | ninf, _ => ninf
  | _, ninf => ninf
  | pinf, b => b
  | a, pinf => a
  | fin a, fin b => if a ≤ b then fin a else fin b

/-- Rust f32 max: the larger argument; if one argument is NaN the other
is returned. -/
def rmax : EF → EF → EF
  | nan, b => b
  | a, nan => a
  | pinf, _ => pinf
  | _, pinf => pinf
  | ninf, b => b
  | a, ninf => a
  | fin a, fin b => if a ≤ b then fin b else fin a

/-- Finiteness of a modelled f32 value. -/
def isFinite : EF → Bool
  | fin _ => true
  | _ => false

@[simp] theorem le_nan_left (a : EF) : le nan a = false := by cases a <;> rfl

@[simp] theorem le_nan_right (a : EF) : le a nan = false := by cases a <;> rfl

@[simp] theorem lt_nan_left (a : EF) : lt nan a = false := by cases a <;> rfl

@[simp] theorem lt_nan_right (a : EF) : lt a nan = false := by cases a <;> rfl

@[simp] theorem lt_ninf_right (a : EF) : lt a ninf = false := by cases a <;> rfl

@[simp] theorem lt_pinf_left (a : EF) : lt pinf a = false := by cases a <;> rfl

@[simp] theorem le_fin_fin (a b : ℚ) : le (fin a) (fin b) = decide (a ≤ b) := rfl

@[simp] theorem lt_fin_fin (a b : ℚ) : lt (fin a) (fin b) = decide (a < b) := rfl

theorem le_ninf_left {a : EF} (h : a ≠ nan) : le ninf a = true := by
  cases a <;> simp_all [le]

theorem le_pinf_right {a : EF} (h : a ≠ nan) : le a pinf = true := by
  cases a <;> simp_all [le]

theorem le_refl {a : EF} (h : a ≠ nan) : le a a = true := by
  cases a <;> simp_all [le]

theorem le_left_ne_nan {a b : EF} (h : le a b = true) : a ≠ nan := by
  intro he; subst he; simp at h

theorem le_right_ne_nan {a b : EF} (h : le a b = true) : b ≠ nan := by
  intro he; subst he; simp at h

theorem lt_left_ne_nan {a b : EF} (h : lt a b = true) : a ≠ nan := by
  intro he; subst he; simp at h

theorem lt_right_ne_nan {a b : EF} (h : lt a b = true) : b ≠ nan := by
  intro he; subst he; simp at h

theorem le_of_lt {a b : EF} (h : lt a b = true) : le a b = true := by
  cases a <;> cases b <;> simp_all [lt, le] <;> linarith

theorem le_trans {a b c : EF} (h1 : le a b = true) (h2 : le b c = true) :
    le a c = true := by
  cases a <;> cases b <;> cases c <;> simp_all [le] <;> linarith

theorem le_of_not_lt {a b : EF} (ha : a ≠ nan) (hb : b ≠ nan)
    (h : lt a b = false) : le b a = true := by
  cases a <;> cases b <;> simp_all [lt, le] <;> linarith

theorem not_lt_of_le {a b : EF} (h : le a b = true) : lt b a = false := by
  cases a <;> cases b <;> simp_all [lt, le] <;> linarith

theorem lt_of_lt_of_le {a b c : EF} (h1 : lt a b = true) (h2 : le b c = true) :
    lt a c = true := by
  cases a <;> cases b <;> cases c <;> simp_all [lt, le] <;> linarith

theorem le_fin_elim {e : EF} {q : ℚ} (h : le e (fin q) = true) :
    e = ninf ∨ ∃ p, e = fin p ∧ p ≤ q := by
  cases e <;> simp_all [le]

theorem fin_le_elim {e : EF} {q : ℚ} (h : le (fin q) e = true) :
    e = pinf ∨ ∃ p, e = fin p ∧ q ≤ p := by
  cases e <;> simp_all [le]

theorem le_fin_mono {e : EF} {u v : ℚ} (h : le e (fin u) = true) (huv : u ≤ v) :
    le e (fin v) = true := by
  cases e <;> simp_all [le] <;> linarith

theorem fin_le_mono {e : EF} {u v : ℚ} (h : le (fin u) e = true) (huv : v ≤ u) :
    le (fin v) e = true := by
  cases e <;> simp_all [le] <;> linarith

@[simp] theorem rmax_fin_nan (a : ℚ) : rmax (fin a) nan = fin a := rfl

@[simp] theorem rmax_fin_ninf (a : ℚ) : rmax (fin a) ninf = fin a := rfl

@[simp] theorem rmax_ninf_fin (b : ℚ) : rmax ninf (fin b) = fin b := rfl

@[simp] theorem rmax_fin_fin (a b : ℚ) :
    rmax (fin a) (fin b) = if a ≤ b then fin b else fin a := rfl

@[simp] theorem rmin_fin_nan (a : ℚ) : rmin (fin a) nan = fin a := rfl

@[simp] theorem rmin_fin_pinf (a : ℚ) : rmin (fin a) pinf = fin a := rfl

@[simp] theorem rmin_pinf_fin (b : ℚ) : rmin pinf (fin b) = fin b := rfl

@[simp] theorem rmin_fin_fin (a b : ℚ) :
    rmin (fin a) (fin b) = if a ≤ b then fin a else fin b := rfl

theorem rmin_fin (a b : ℚ) : rmin (fin a) (fin b) = fin (min a b) := by
  by_cases h : a ≤ b
  · simp [rmin, h, min_eq_left h]
  · simp [rmin, h, min_eq_right (le_of_not_le h)]

theorem rmax_fin (a b : ℚ) : rmax (fin a) (fin b) = fin (max a b) := by
  by_cases h : a ≤ b
  · simp [rmax, h, max_eq_right h]
  · simp [rmax, h, max_eq_left (le_of_not_le h)]

theorem rmin_cases (a b : EF) : rmin a b = a ∨ rmin a b = b := by
  rcases a with _ | _ | qa | _ <;> rcases b with _ | _ | qb | _ <;>
    first
      | (left; rfl)
      | (right; rfl)
      | (by_cases h : qa ≤ qb
         · left; simp [rmin, h]
         · right; simp [rmin, h])

theorem rmax_cases (a b : EF) : rmax a b = a ∨ rmax a b = b := by
  rcases a with _ | _ | qa | _ <;> rcases b with _ | _ | qb | _ <;>
    first
      | (left; rfl)
      | (right; rfl)
      | (by_cases h : qa ≤ qb
         · right; simp [rmax, h]
         · left; simp [rmax, h])

theorem rmin_pinf_left {a : EF} (h : a ≠ nan) : rmin pinf a = a := by
  cases a <;> simp_all [rmin]

theorem rmin_pinf_right {a : EF} (h : a ≠ nan) : rmin a pinf = a := by
  cases a <;> simp_all [rmin]

theorem rmax_ninf_left {a : EF} (h : a ≠ nan) : rmax ninf a = a := by
  cases a <;> simp_all [rmax]

theorem rmax_ninf_right {a : EF} (h : a ≠ nan) : rmax a ninf = a := by
  cases a <;> simp_all [rmax]

theorem le_rmax_left {a b : EF} (ha : a ≠ nan) : le a (rmax a b) = true := by
  rcases a with _ | _ | qa | _ <;> rcases b with _ | _ | qb | _ <;>
    first
      | rfl
      | (simp_all; done)
      | (by_cases h : qa ≤ qb
         · simp [h, le]
         · simp [h, le])

theorem le_rmax_right {a b : EF} (ha : a ≠ nan) (hb : b ≠ nan) :
    le b (rmax a b) = true := by
  rcases a with _ | _ | qa | _ <;> rcases b with _ | _ | qb | _ <;>
    first
      | rfl
      | (simp_all; done)
      | (by_cases h : qa ≤ qb
         · simp [h, le]
         · simp [h, le]; exact le_of_not_le h)

theorem rmin_le_left {a b : EF} (ha : a ≠ nan) : le (rmin a b) a = true := by
  rcases a with _ | _ | qa | _ <;> rcases b with _ | _ | qb | _ <;>
    first
      | rfl
      | (simp_all; done)
      | (by_cases h : qa ≤ qb
         · simp [h, le]
         · simp [h, le]; exact le_of_not_le h)

theorem rmin_le_right {a b : EF} (ha : a ≠ nan) (hb : b ≠ nan) :
    le (rmin a b) b = true := by
  rcases a with _ | _ | qa | _ <;> rcases b with _ | _ | qb | _ <;>
    first
      | rfl
      | (simp_all; done)
      | (by_cases h : qa ≤ qb
         · simp [h, le]
         · simp [h, le])

end EF

open EF

/-- A 3D point or vector of modelled f32 components (nalgebra Point3 and
Vector3 are both modelled by this type). -/
structure Point3 where
  x : EF
  y : EF
  z : EF
  deriving DecidableEq, Repr

/-- AABB struct of src/aabb.rs: minimum and maximum coordinates. -/
structure AABB where
  min : Point3
  max : Point3
  deriving DecidableEq, Repr

/-- Modelled from the spec: the ray primitive of the missing ray.rs holds
an origin and a direction, with precomputed per-axis reciprocal
inv_direction and per-axis sign bits used by the slab test (the sign bit
of an axis is 1 exactly when the reciprocal of the direction component is
negative).  Here inv_direction and sign are derived functions of the
stored direction. -/
structure Ray where
  origin : Point3
  direction : Point3
  deriving DecidableEq, Repr

namespace Ray

/-- Modelled from the spec: the precomputed componentwise reciprocal of
the ray direction. -/
def inv_direction (r : Ray) : Point3 :=
  ⟨inv r.direction.x, inv r.direction.y, inv r.direction.z⟩

/-- Modelled from the spec: the precomputed x sign bit of the ray. -/
def sign_x (r : Ray) : ℕ := if lt (inv r.direction.x) (fin 0) then 1 else 0

/-- Modelled from the spec: the precomputed y sign bit of the ray. -/
def sign_y (r : Ray) : ℕ := if lt (inv r.direction.y) (fin 0) then 1 else 0

/-- Modelled from the spec: the precomputed z sign bit of the ray. -/
def sign_z (r : Ray) : ℕ := if lt (inv r.direction.z) (fin 0) then 1 else 0

/-- The point origin + t * direction at ray parameter t, evaluated in the
modelled f32 arithmetic.  Used to state the semantic claims about the
ray tests. -/
def point_at (r : Ray) (t : ℚ) : Point3 :=
  ⟨add r.origin.x (mul (fin t) r.direction.x),
   add r.origin.y (mul (fin t) r.direction.y),
   add r.origin.z (mul (fin t) r.direction.z)⟩

end Ray

/-- Modelled from the spec: the raycast result type of the missing
raycast.rs; the intersection test of src/aabb.rs either misses or hits
with an entry parameter. -/
inductive RaycastResult where
  | Miss : RaycastResult
  | Hit (distance : EF) : RaycastResult
  deriving DecidableEq, Repr

namespace AABB

/-- AABB::with_bounds. -/
def with_bounds (mn mx : Point3) : AABB := ⟨mn, mx⟩

/-- AABB::empty: min = +inf, max = -inf on every axis. -/
def empty : AABB := ⟨⟨pinf, pinf, pinf⟩, ⟨ninf, ninf, ninf⟩⟩

/-- AABB::contains. -/
def contains (b : AABB) (p : Point3) : Bool :=
  le b.min.x p.x && le p.x b.max.x && le b.min.y p.y && le p.y b.max.y &&
  le b.min.z p.z && le p.z b.max.z

/-- AABB::approx_contains_eps. -/
def approx_contains_eps (b : AABB) (p : Point3) (epsilon : EF) : Bool :=
  lt (neg epsilon) (sub p.x b.min.x) && lt (sub p.x b.max.x) epsilon &&
  lt (neg epsilon) (sub p.y b.min.y) && lt (sub p.y b.max.y) epsilon &&
  lt (neg epsilon) (sub p.z b.min.z) && lt (sub p.z b.max.z) epsilon

/-- AABB::join. -/
def join (b other : AABB) : AABB :=
  with_bounds ⟨rmin b.min.x other.min.x,
               rmin b.min.y other.min.y,
               rmin b.min.z other.min.z⟩
              ⟨rmax b.max.x other.max.x,
               rmax b.max.y other.max.y,
               rmax b.max.z other.max.z⟩

/-- AABB::grow. -/
def grow (b : AABB) (other : Point3) : AABB :=
  with_bounds ⟨rmin b.min.x other.x,
               rmin b.min.y other.y,
               rmin b.min.z other.z⟩
              ⟨rmax b.max.x other.x,
               rmax b.max.y other.y,
               rmax b.max.z other.z⟩

/-- The Bounded implementation for AABB: aabb() returns the AABB itself. -/
def aabb (b : AABB) : AABB := b

/-- AABB::join_bounded, instantiated at the Bounded implementation for
AABB itself (the source is generic over any Bounded type). -/
def join_bounded (b : AABB) (other : AABB) : AABB := b.join other.aabb

/-- AABB::size: max - min componentwise. -/
def size (b : AABB) : Point3 :=
  ⟨sub b.max.x b.min.x, sub b.max.y b.min.y, sub b.max.z b.min.z⟩

/-- AABB::surface_area: 2 * (sx*sy + sx*sz + sy*sz). -/
def surface_area (b : AABB) : EF :=
  mul (fin 2) (add (add (mul b.size.x b.size.y) (mul b.size.x b.size.z))
                   (mul b.size.y b.size.z))

/-- AABB::volume: sx*sy*sz. -/
def volume (b : AABB) : EF := mul (mul b.size.x b.size.y) b.size.z

/-- AABB::center: min + size/2. -/
def center (b : AABB) : Point3 :=
  ⟨add b.min.x (mul b.size.x (inv (fin 2))),
   add b.min.y (mul b.size.y (inv (fin 2))),
   add b.min.z (mul b.size.z (inv (fin 2)))⟩

end AABB

/-- The Axis enumeration of the axis module (only its three values are
needed by src/aabb.rs). -/
inductive Axis where
  | X : Axis
  | Y : Axis
  | Z : Axis
  deriving DecidableEq, Repr

namespace AABB

/-- AABB::largest_axis: X if strictly larger than both, else Y if
strictly larger than Z, else Z. -/
def largest_axis (b : AABB) : Axis :=
  if lt b.size.y b.size.x && lt b.size.z b.size.x then Axis.X
  else if lt b.size.z b.size.y then Axis.Y
  else Axis.Z

/-- The Index impl for AABB: index 0 gives the min corner, every other
index gives the max corner. -/
def index (b : AABB) (i : ℕ) : Point3 := if i = 0 then b.min else b.max

/-- The Default impl for AABB returns the empty AABB. -/
def default : AABB := empty

/-- AABB::does_intersect, the optimized sign-indexed slab test of the
Intersectable impl in src/aabb.rs. -/
def does_intersect (b : AABB) (ray : Ray) : Bool :=
  let ray_min := mul (sub (b.index ray.sign_x).x ray.origin.x) ray.inv_direction.x
  let ray_max := mul (sub (b.index (1 - ray.sign_x)).x ray.origin.x) ray.inv_direction.x
  let y_min := mul (sub (b.index ray.sign_y).y ray.origin.y) ray.inv_direction.y
  let y_max := mul (sub (b.index (1 - ray.sign_y)).y ray.origin.y) ray.inv_direction.y
  if lt y_max ray_min || lt ray_max y_min then false
  else
    let ray_min := if lt ray_min y_min then y_min else ray_min
    let ray_max := if lt y_max ray_max then y_max else ray_max
    let z_min := mul (sub (b.index ray.sign_z).z ray.origin.z) ray.inv_direction.z
    let z_max := mul (sub (b.index (1 - ray.sign_z)).z ray.origin.z) ray.inv_direction.z
    if lt z_max ray_min || lt ray_max z_min then false
    else
      let ray_max := if lt z_max ray_max then z_max else ray_max
      lt (fin 0) ray_max

/-- AABB::intersection of the Intersectable impl in src/aabb.rs. -/
def intersection (b : AABB) (ray : Ray) : RaycastResult :=
  let hit_min_x := mul (sub b.min.x ray.origin.x) ray.inv_direction.x
  let hit_max_x := mul (sub b.max.x ray.origin.x) ray.inv_direction.x
  let hit_min_y := mul (sub b.min.y ray.origin.y) ray.inv_direction.y
  let hit_max_y := mul (sub b.max.y ray.origin.y) ray.inv_direction.y
  let hit_min_z := mul (sub b.min.z ray.origin.z) ray.inv_direction.z
  let hit_max_z := mul (sub b.max.z ray.origin.z) ray.inv_direction.z
  let x_entry := rmin hit_min_x hit_max_x
  let y_entry := rmin hit_min_y hit_max_y
  let z_entry := rmin hit_min_z hit_max_z
  let x_exit := rmax hit_min_x hit_max_x
  let y_exit := rmax hit_min_y hit_max_y
  let z_exit := rmax hit_min_z hit_max_z
  let latest_entry := rmax (rmax x_entry y_entry) z_entry
  let earliest_exit := rmin (rmin x_exit y_exit) z_exit
  if lt latest_entry earliest_exit && lt (fin 0) earliest_exit then
    RaycastResult.Hit latest_entry
  else
    RaycastResult.Miss

end AABB

/-- The Bounded implementation for Point3: the degenerate AABB with both
corners at the point. -/
def Point3.aabb (p : Point3) : AABB := AABB.with_bounds p p

/-- Validity of a bound in the sense of the data model of the spec:
min <= max on every axis. -/
def AABB.validB (b : AABB) : Bool :=
  le b.min.x b.max.x && le b.min.y b.max.y && le b.min.z b.max.z

namespace EF

@[simp] theorem neg_nan : neg nan = nan := rfl

@[simp] theorem neg_pinf : neg pinf = ninf := rfl

@[simp] theorem neg_ninf : neg ninf = pinf := rfl

@[simp] theorem neg_fin (a : ℚ) : neg (fin a) = fin (-a) := rfl

@[simp] theorem add_nan_left (a : EF) : add nan a = nan := by cases a <;> rfl

@[simp] theorem add_nan_right (a : EF) : add a nan = nan := by cases a <;> rfl

@[simp] theorem add_fin_fin (a b : ℚ) : add (fin a) (fin b) = fin (a + b) := rfl

@[simp] theorem add_pinf_fin (b : ℚ) : add pinf (fin b) = pinf := rfl

@[simp] theorem add_fin_pinf (a : ℚ) : add (fin a) pinf = pinf := rfl

@[simp] theorem add_ninf_fin (b : ℚ) : add ninf (fin b) = ninf := rfl

@[simp] theorem add_fin_ninf (a : ℚ) : add (fin a) ninf = ninf := rfl

@[simp] theorem add_pinf_ninf : add pinf ninf = nan := rfl

@[simp] theorem add_ninf_pinf : add ninf pinf = nan := rfl

@[simp] theorem add_pinf_pinf : add pinf pinf = pinf := rfl

@[simp] theorem add_ninf_ninf : add ninf ninf = ninf := rfl

@[simp] theorem mul_nan_left (a : EF) : mul nan a = nan := by cases a <;> rfl

@[simp] theorem mul_nan_right (a : EF) : mul a nan = nan := by cases a <;> rfl

@[simp] theorem mul_fin_fin (a b : ℚ) : mul (fin a) (fin b) = fin (a * b) := rfl

@[simp] theorem mul_pinf_pinf : mul pinf pinf = pinf := rfl

@[simp] theorem mul_pinf_ninf : mul pinf ninf = ninf := rfl

@[simp] theorem mul_ninf_pinf : mul ninf pinf = ninf := rfl

@[simp] theorem mul_ninf_ninf : mul ninf ninf = pinf := rfl

theorem mul_fin_pinf_pos {a : ℚ} (h : 0 < a) : mul (fin a) pinf = pinf := by
  simp [mul, h]

theorem mul_fin_pinf_neg {a : ℚ} (h : a < 0) : mul (fin a) pinf = ninf := by
  simp [mul, h, asymm h]

@[simp] theorem mul_fin_pinf_zero : mul (fin 0) pinf = nan := by simp [mul]

theorem mul_fin_ninf_pos {a : ℚ} (h : 0 < a) : mul (fin a) ninf = ninf := by
  simp [mul, h]

theorem mul_fin_ninf_neg {a : ℚ} (h : a < 0) : mul (fin a) ninf = pinf := by
  simp [mul, h, asymm h]

@[simp] theorem mul_fin_ninf_zero : mul (fin 0) ninf = nan := by simp [mul]

theorem mul_pinf_fin_pos {b : ℚ} (h : 0 < b) : mul pinf (fin b) = pinf := by
  simp [mul, h]

theorem mul_pinf_fin_neg {b : ℚ} (h : b < 0) : mul pinf (fin b) = ninf := by
  simp [mul, h, asymm h]

theorem mul_ninf_fin_pos {b : ℚ} (h : 0 < b) : mul ninf (fin b) = ninf := by
  simp [mul, h]

theorem mul_ninf_fin_neg {b : ℚ} (h : b < 0) : mul ninf (fin b) = pinf := by
  simp [mul, h, asymm h]

@[simp] theorem inv_nan : inv nan = nan := rfl

@[simp] theorem inv_pinf : inv pinf = fin 0 := rfl

@[simp] theorem inv_ninf : inv ninf = fin 0 := rfl

@[simp] theorem inv_fin_zero : inv (fin 0) = pinf := by simp [inv]

theorem inv_fin {a : ℚ} (h : a ≠ 0) : inv (fin a) = fin (1 / a) := by
  simp [inv, h]

theorem pinf_le_elim {e : EF} (h : le pinf e = true) : e = pinf := by
  cases e <;> simp_all [le]

theorem le_ninf_elim {e : EF} (h : le e ninf = true) : e = ninf := by
  cases e <;> simp_all [le]

end EF

/-- The containment constraint of a single axis: the coordinate of the
point at parameter t is between the two bound coordinates of that axis. -/
def axC (mn mx o d : EF) (t : ℚ) : Bool :=
  le mn (add o (mul (fin t) d)) && le (add o (mul (fin t) d)) mx

/-- The near slab value of one axis of the sign-indexed slab test: the
bound coordinate selected by the sign bit, minus the origin coordinate,
times the reciprocal direction. -/
def nearVal (mn mx o d : EF) : EF :=
  mul (sub (if lt (inv d) (fin 0) then mx else mn) o) (inv d)

/-- The far slab value of one axis of the sign-indexed slab test. -/
def farVal (mn mx o d : EF) : EF :=
  mul (sub (if lt (inv d) (fin 0) then mn else mx) o) (inv d)

/-- The control skeleton of does_intersect as a pure function of the six
per-axis slab values. -/
def doesCore (a1 b1 a2 b2 a3 b3 : EF) : Bool :=
  if lt b2 a1 || lt b1 a2 then false
  else if lt b3 (if lt a1 a2 then a2 else a1) ||
          lt (if lt b2 b1 then b2 else b1) a3 then false
  else lt (fin 0) (if lt b3 (if lt b2 b1 then b2 else b1) then b3
                   else if lt b2 b1 then b2 else b1)

theorem contains_point_at (b : AABB) (r : Ray) (t : ℚ) :
    AABB.contains b (Ray.point_at r t) =
      (axC b.min.x b.max.x r.origin.x r.direction.x t &&
       axC b.min.y b.max.y r.origin.y r.direction.y t &&
       axC b.min.z b.max.z r.origin.z r.direction.z t) := by
  simp [AABB.contains, Ray.point_at, axC, Bool.and_assoc]

theorem does_eq_core (b : AABB) (r : Ray) :
    AABB.does_intersect b r =
      doesCore (nearVal b.min.x b.max.x r.origin.x r.direction.x)
               (farVal b.min.x b.max.x r.origin.x r.direction.x)
               (nearVal b.min.y b.max.y r.origin.y r.direction.y)
               (farVal b.min.y b.max.y r.origin.y r.direction.y)
               (nearVal b.min.z b.max.z r.origin.z r.direction.z)
               (farVal b.min.z b.max.z r.origin.z r.direction.z) := by
  unfold AABB.does_intersect doesCore nearVal farVal Ray.sign_x Ray.sign_y
    Ray.sign_z Ray.inv_direction AABB.index
  by_cases hx : lt (inv r.direction.x) (fin 0) = true <;>
    by_cases hy : lt (inv r.direction.y) (fin 0) = true <;>
      by_cases hz : lt (inv r.direction.z) (fin 0) = true <;>
        simp [hx, hy, hz]

/-- Shape of a near slab value that lies at or below the parameter t (or
is harmless for the slab test). -/
def lowShape (t : ℚ) (a : EF) : Prop :=
  a = ninf ∨ a = nan ∨ ∃ q, a = fin q ∧ q ≤ t

/-- Shape of a far slab value that lies at or above the parameter t (or
is harmless for the slab test). -/
def highShape (t : ℚ) (b : EF) : Prop :=
  b = pinf ∨ b = nan ∨ ∃ q, b = fin q ∧ t ≤ q

theorem noRej {t : ℚ} {bb aa : EF} (hb : highShape t bb) (ha : lowShape t aa) :
    lt bb aa = false := by
  rcases hb with hb | hb | ⟨p, hb, hp⟩ <;> subst hb
  · simp
  · simp
  · rcases ha with ha | ha | ⟨q, ha, hq⟩ <;> subst ha
    · simp
    · simp
    · simp; linarith

theorem lowShape_if {t : ℚ} {c : Bool} {a1 a2 : EF}
    (h1 : lowShape t a1) (h2 : lowShape t a2) :
    lowShape t (if c then a2 else a1) := by
  cases c <;> simp [h1, h2]

theorem highShape_if {t : ℚ} {c : Bool} {b1 b2 : EF}
    (h1 : highShape t b1) (h2 : highShape t b2) :
    highShape t (if c then b2 else b1) := by
  cases c <;> simp [h1, h2]

theorem highShape_pos {t : ℚ} {e : EF} (ht : 0 < t) (h : highShape t e)
    (hn : e ≠ nan) : lt (fin 0) e = true := by
  rcases h with h | h | ⟨q, h, hq⟩ <;> subst h
  · rfl
  · exact absurd rfl hn
  · simp; linarith

theorem update_ne_nan {b e : EF} (he : e ≠ nan) :
    (if lt b e then b else e) ≠ nan := by
  by_cases h : lt b e = true
  · rw [if_pos h]; exact lt_left_ne_nan h
  · rw [if_neg h]; exact he

theorem doesCore_true {t : ℚ} (ht : 0 < t) {a1 b1 a2 b2 a3 b3 : EF}
    (h1 : lowShape t a1) (h2 : highShape t b1) (hb1 : b1 ≠ nan)
    (h3 : lowShape t a2) (h4 : highShape t b2)
    (h5 : lowShape t a3) (h6 : highShape t b3) :
    doesCore a1 b1 a2 b2 a3 b3 = true := by
  have hrm : highShape t (if lt b2 b1 then b2 else b1) := highShape_if h2 h4
  have hrmn : (if lt b2 b1 then b2 else b1) ≠ nan := update_ne_nan hb1
  have hrm2 : highShape t (if lt b3 (if lt b2 b1 then b2 else b1) then b3
      else if lt b2 b1 then b2 else b1) := highShape_if hrm h6
  have hrm2n : (if lt b3 (if lt b2 b1 then b2 else b1) then b3
      else if lt b2 b1 then b2 else b1) ≠ nan := update_ne_nan hrmn
  unfold doesCore
  rw [noRej h4 h1, noRej h2 h3]
  simp only [Bool.or_false, if_false, Bool.false_eq_true]
  rw [noRej h6 (lowShape_if h1 h3), noRej hrm h5]
  simp only [Bool.or_false, if_false, Bool.false_eq_true]
  exact highShape_pos ht hrm2 hrm2n

theorem doesCore_high {a1 b1 a2 b2 a3 b3 : EF}
    (h : doesCore a1 b1 a2 b2 a3 b3 = true) :
    b1 ≠ nan ∧ lt (fin 0) b1 = true ∧
      (b2 ≠ nan → lt (fin 0) b2 = true) ∧
      (b3 ≠ nan → lt (fin 0) b3 = true) := by
  unfold doesCore at h
  by_cases hc1 : (lt b2 a1 || lt b1 a2) = true
  · rw [if_pos hc1] at h; exact absurd h (by simp)
  · rw [if_neg hc1] at h
    by_cases hc2 : (lt b3 (if lt a1 a2 then a2 else a1) ||
        lt (if lt b2 b1 then b2 else b1) a3) = true
    · rw [if_pos hc2] at h; exact absurd h (by simp)
    · rw [if_neg hc2] at h
      have hb1 : b1 ≠ nan := by
        intro hb; subst hb
        have e1 : (if lt b2 nan then b2 else nan) = nan := by simp
        rw [e1] at h
        have e2 : (if lt b3 nan then b3 else nan) = nan := by simp
        rw [e2] at h
        simp at h
      have hrmn : (if lt b2 b1 then b2 else b1) ≠ nan := update_ne_nan hb1
      have hfin : lt (fin 0) (if lt b3 (if lt b2 b1 then b2 else b1) then b3
          else if lt b2 b1 then b2 else b1) = true := h
      have hle1 : le (if lt b2 b1 then b2 else b1) b1 = true := by
        by_cases hc : lt b2 b1 = true
        · rw [if_pos hc]; exact le_of_lt hc
        · rw [if_neg hc]; exact le_refl hb1
      have hle2 : le (if lt b3 (if lt b2 b1 then b2 else b1) then b3
          else if lt b2 b1 then b2 else b1) (if lt b2 b1 then b2 else b1) = true := by
        by_cases hc : lt b3 (if lt b2 b1 then b2 else b1) = true
        · rw [if_pos hc]; exact le_of_lt hc
        · rw [if_neg hc]; exact le_refl hrmn
      refine ⟨hb1, ?_, ?_, ?_⟩
      · exact lt_of_lt_of_le (lt_of_lt_of_le hfin hle2) hle1
      · intro hb2
        have hle3 : le (if lt b2 b1 then b2 else b1) b2 = true := by
          by_cases hc : lt b2 b1 = true
          · rw [if_pos hc]; exact le_refl hb2
          · rw [if_neg hc]; exact le_of_not_lt hb2 hb1 (by simpa using hc)
        exact lt_of_lt_of_le (lt_of_lt_of_le hfin hle2) hle3
      · intro hb3
        have hle4 : le (if lt b3 (if lt b2 b1 then b2 else b1) then b3
            else if lt b2 b1 then b2 else b1) b3 = true := by
          by_cases hc : lt b3 (if lt b2 b1 then b2 else b1) = true
          · rw [if_pos hc]; exact le_refl hb3
          · rw [if_neg hc]; exact le_of_not_lt hb3 hrmn (by simpa using hc)
        exact lt_of_lt_of_le hfin hle4

namespace EF

@[simp] theorem sub_fin_fin (a b : ℚ) : sub (fin a) (fin b) = fin (a - b) := by
  simp [sub, sub_eq_add_neg]

@[simp] theorem sub_ninf_fin (b : ℚ) : sub ninf (fin b) = ninf := rfl

@[simp] theorem sub_pinf_fin (b : ℚ) : sub pinf (fin b) = pinf := rfl

@[simp] theorem sub_fin_pinf (a : ℚ) : sub (fin a) pinf = ninf := rfl

@[simp] theorem sub_fin_ninf (a : ℚ) : sub (fin a) ninf = pinf := rfl

@[simp] theorem sub_pinf_pinf : sub pinf pinf = nan := rfl

@[simp] theorem sub_ninf_ninf : sub ninf ninf = nan := rfl

@[simp] theorem sub_ninf_pinf : sub ninf pinf = ninf := rfl

@[simp] theorem sub_pinf_ninf : sub pinf ninf = pinf := rfl

@[simp] theorem sub_nan_left (a : EF) : sub nan a = nan := by cases a <;> rfl

@[simp] theorem sub_nan_right (a : EF) : sub a nan = nan := by cases a <;> rfl

theorem mul_nonpos_pinf {c : ℚ} (hc : c ≤ 0) :
    mul (fin c) pinf = ninf ∨ mul (fin c) pinf = nan := by
  rcases lt_or_eq_of_le hc with h | h
  · left; exact mul_fin_pinf_neg h
  · right; rw [h]; simp

theorem mul_nonneg_pinf {c : ℚ} (hc : 0 ≤ c) :
    mul (fin c) pinf = pinf ∨ mul (fin c) pinf = nan := by
  rcases lt_or_eq_of_le hc with h | h
  · left; exact mul_fin_pinf_pos h
  · right; rw [← h]; simp

end EF

theorem sign_cond_pos {d : ℚ} (hd : 0 < d) : lt (inv (fin d)) (fin 0) = false := by
  rw [EF.inv_fin (ne_of_gt hd)]
  simp only [lt_fin_fin, decide_eq_false_iff_not, not_lt]
  exact le_of_lt (one_div_pos.mpr hd)

theorem sign_cond_neg {d : ℚ} (hd : d < 0) : lt (inv (fin d)) (fin 0) = true := by
  rw [EF.inv_fin (ne_of_lt hd)]
  simp only [lt_fin_fin, decide_eq_true_eq]
  exact one_div_neg.mpr hd

theorem sign_cond_zero : lt (inv (fin 0)) (fin 0) = false := by simp

theorem nearVal_pos {mn mx o : EF} {d : ℚ} (hd : 0 < d) :
    nearVal mn mx o (fin d) = mul (sub mn o) (fin (1 / d)) := by
  unfold nearVal
  rw [sign_cond_pos hd, EF.inv_fin (ne_of_gt hd)]
  simp

theorem nearVal_neg {mn mx o : EF} {d : ℚ} (hd : d < 0) :
    nearVal mn mx o (fin d) = mul (sub mx o) (fin (1 / d)) := by
  unfold nearVal
  rw [sign_cond_neg hd, EF.inv_fin (ne_of_lt hd)]
  simp

theorem nearVal_zero {mn mx o : EF} :
    nearVal mn mx o (fin 0) = mul (sub mn o) pinf := by
  unfold nearVal
  rw [EF.inv_fin_zero]
  simp

theorem farVal_pos {mn mx o : EF} {d : ℚ} (hd : 0 < d) :
    farVal mn mx o (fin d) = mul (sub mx o) (fin (1 / d)) := by
  unfold farVal
  rw [sign_cond_pos hd, EF.inv_fin (ne_of_gt hd)]
  simp

theorem farVal_neg {mn mx o : EF} {d : ℚ} (hd : d < 0) :
    farVal mn mx o (fin d) = mul (sub mn o) (fin (1 / d)) := by
  unfold farVal
  rw [sign_cond_neg hd, EF.inv_fin (ne_of_lt hd)]
  simp

theorem farVal_zero {mn mx o : EF} :
    farVal mn mx o (fin 0) = mul (sub mx o) pinf := by
  unfold farVal
  rw [EF.inv_fin_zero]
  simp

theorem div_cond_le {a o t d : ℚ} (hd : 0 < d) :
    (a - o) * (1 / d) ≤ t ↔ a ≤ o + t * d := by
  rw [mul_one_div, div_le_iff hd]
  constructor <;> intro <;> linarith

theorem div_cond_ge {a o t d : ℚ} (hd : 0 < d) :
    t ≤ (a - o) * (1 / d) ↔ o + t * d ≤ a := by
  rw [mul_one_div, le_div_iff hd]
  constructor <;> intro <;> linarith

theorem div_cond_le_neg {a o t d : ℚ} (hd : d < 0) :
    (a - o) * (1 / d) ≤ t ↔ o + t * d ≤ a := by
  rw [mul_one_div, div_le_iff_of_neg hd]
  constructor <;> intro <;> linarith

theorem div_cond_ge_neg {a o t d : ℚ} (hd : d < 0) :
    t ≤ (a - o) * (1 / d) ↔ a ≤ o + t * d := by
  rw [mul_one_div, le_div_iff_of_neg hd]
  constructor <;> intro <;> linarith

theorem axis_shape {mn mx o : EF} {d t0 : ℚ}
    (h : axC mn mx o (fin d) t0 = true) :
    ((∀ t : ℚ, axC mn mx o (fin d) t = true) ∧
      (nearVal mn mx o (fin d) = ninf ∨ nearVal mn mx o (fin d) = nan) ∧
      (farVal mn mx o (fin d) = pinf ∨ farVal mn mx o (fin d) = nan) ∧
      (o = ninf ∨ o = pinf ∨ d = 0)) ∨
    ((∀ t : ℚ, le (nearVal mn mx o (fin d)) (fin t) = true →
        le (fin t) (farVal mn mx o (fin d)) = true →
        axC mn mx o (fin d) t = true) ∧
      le (nearVal mn mx o (fin d)) (fin t0) = true ∧
      le (fin t0) (farVal mn mx o (fin d)) = true) := by
  unfold axC at h
  rw [Bool.and_eq_true] at h
  obtain ⟨hmn, hmx⟩ := h
  rcases o with _ | _ | oq | _
  · simp at hmn
  · -- o = ninf: the point is at minus infinity for every parameter
    simp only [EF.mul_fin_fin, EF.add_ninf_fin] at hmn hmx
    have hmn' := EF.le_ninf_elim hmn
    have hmxn := EF.le_right_ne_nan hmx
    left
    refine ⟨?_, ?_, ?_, Or.inl rfl⟩
    · intro t
      unfold axC
      rw [Bool.and_eq_true]
      simp only [EF.mul_fin_fin, EF.add_ninf_fin]
      exact ⟨by rw [hmn']; rfl, EF.le_ninf_left hmxn⟩
    · rcases lt_trichotomy d 0 with hd | hd | hd
      · rw [nearVal_neg hd]
        rcases mx with _ | _ | mxq | _
        · exact absurd rfl hmxn
        · simp
        · rw [EF.sub_fin_ninf, EF.mul_pinf_fin_neg (one_div_neg.mpr hd)]
          left; rfl
        · rw [EF.sub_pinf_ninf, EF.mul_pinf_fin_neg (one_div_neg.mpr hd)]
          left; rfl
      · subst hd
        rw [nearVal_zero, hmn']
        simp
      · rw [nearVal_pos hd, hmn']
        simp
    · rcases lt_trichotomy d 0 with hd | hd | hd
      · rw [farVal_neg hd, hmn']
        simp
      · subst hd
        rw [farVal_zero]
        rcases mx with _ | _ | mxq | _
        · exact absurd rfl hmxn
        · simp
        · rw [EF.sub_fin_ninf, EF.mul_pinf_pinf]; left; rfl
        · rw [EF.sub_pinf_ninf, EF.mul_pinf_pinf]; left; rfl
      · rw [farVal_pos hd]
        rcases mx with _ | _ | mxq | _
        · exact absurd rfl hmxn
        · simp
        · rw [EF.sub_fin_ninf, EF.mul_pinf_fin_pos (one_div_pos.mpr hd)]
          left; rfl
        · rw [EF.sub_pinf_ninf, EF.mul_pinf_fin_pos (one_div_pos.mpr hd)]
          left; rfl
  · -- o = fin oq
    simp only [EF.mul_fin_fin, EF.add_fin_fin] at hmn hmx
    rcases lt_trichotomy d 0 with hd | hd | hd
    · -- d < 0: exact interval axis
      right
      have hinvneg := one_div_neg.mpr hd
      rw [nearVal_neg hd, farVal_neg hd]
      refine ⟨?_, ?_, ?_⟩
      · intro t h1 h2
        unfold axC
        rw [Bool.and_eq_true]
        simp only [EF.mul_fin_fin, EF.add_fin_fin]
        constructor
        · rcases EF.le_fin_elim hmn with hE | ⟨p, hp, hple⟩
          · rw [hE]; rfl
          · rw [hp] at h2 ⊢
            rw [EF.sub_fin_fin] at h2
            simp only [EF.mul_fin_fin, le_fin_fin, decide_eq_true_eq] at h2 ⊢
            exact (div_cond_ge_neg hd).mp h2
        · rcases EF.fin_le_elim hmx with hE | ⟨p, hp, hple⟩
          · rw [hE]; rfl
          · rw [hp] at h1 ⊢
            rw [EF.sub_fin_fin] at h1
            simp only [EF.mul_fin_fin, le_fin_fin, decide_eq_true_eq] at h1 ⊢
            exact (div_cond_le_neg hd).mp h1
      · rcases EF.fin_le_elim hmx with hE | ⟨p, hp, hple⟩
        · rw [hE, EF.sub_pinf_fin, EF.mul_pinf_fin_neg hinvneg]; rfl
        · rw [hp, EF.sub_fin_fin]
          simp only [EF.mul_fin_fin, le_fin_fin, decide_eq_true_eq]
          exact (div_cond_le_neg hd).mpr hple
      · rcases EF.le_fin_elim hmn with hE | ⟨p, hp, hple⟩
        · rw [hE, EF.sub_ninf_fin, EF.mul_ninf_fin_neg hinvneg]; rfl
        · rw [hp, EF.sub_fin_fin]
          simp only [EF.mul_fin_fin, le_fin_fin, decide_eq_true_eq]
          exact (div_cond_ge_neg hd).mpr hple
    · -- d = 0: the axis constraint does not depend on the parameter
      subst hd
      simp only [mul_zero, add_zero] at hmn hmx
      left
      refine ⟨?_, ?_, ?_, Or.inr (Or.inr rfl)⟩
      · intro t
        unfold axC
        rw [Bool.and_eq_true]
        simp only [EF.mul_fin_fin, EF.add_fin_fin, mul_zero, add_zero]
        exact ⟨hmn, hmx⟩
      · rw [nearVal_zero]
        rcases EF.le_fin_elim hmn with hE | ⟨p, hp, hple⟩
        · rw [hE, EF.sub_ninf_fin, EF.mul_ninf_pinf]; left; rfl
        · rw [hp, EF.sub_fin_fin]
          exact EF.mul_nonpos_pinf (by linarith)
      · rw [farVal_zero]
        rcases EF.fin_le_elim hmx with hE | ⟨p, hp, hple⟩
        · rw [hE, EF.sub_pinf_fin, EF.mul_pinf_pinf]; left; rfl
        · rw [hp, EF.sub_fin_fin]
          exact EF.mul_nonneg_pinf (by linarith)
    · -- d > 0: exact interval axis
      right
      have hinvpos := one_div_pos.mpr hd
      rw [nearVal_pos hd, farVal_pos hd]
      refine ⟨?_, ?_, ?_⟩
      · intro t h1 h2
        unfold axC
        rw [Bool.and_eq_true]
        simp only [EF.mul_fin_fin, EF.add_fin_fin]
        constructor
        · rcases EF.le_fin_elim hmn with hE | ⟨p, hp, hple⟩
          · rw [hE]; rfl
          · rw [hp] at h1 ⊢
            rw [EF.sub_fin_fin] at h1
            simp only [EF.mul_fin_fin, le_fin_fin, decide_eq_true_eq] at h1 ⊢
            exact (div_cond_le hd).mp h1
        · rcases EF.fin_le_elim hmx with hE | ⟨p, hp, hple⟩
          · rw [hE]; rfl
          · rw [hp] at h2 ⊢
            rw [EF.sub_fin_fin] at h2
            simp only [EF.mul_fin_fin, le_fin_fin, decide_eq_true_eq] at h2 ⊢
            exact (div_cond_ge hd).mp h2
      · rcases EF.le_fin_elim hmn with hE | ⟨p, hp, hple⟩
        · rw [hE, EF.sub_ninf_fin, EF.mul_ninf_fin_pos hinvpos]; rfl
        · rw [hp, EF.sub_fin_fin]
          simp only [EF.mul_fin_fin, le_fin_fin, decide_eq_true_eq]
          exact (div_cond_le hd).mpr hple
      · rcases EF.fin_le_elim hmx with hE | ⟨p, hp, hple⟩
        · rw [hE, EF.sub_pinf_fin, EF.mul_pinf_fin_pos hinvpos]; rfl
        · rw [hp, EF.sub_fin_fin]
          simp only [EF.mul_fin_fin, le_fin_fin, decide_eq_true_eq]
          exact (div_cond_ge hd).mpr hple
  · -- o = pinf: the point is at plus infinity for every parameter
    simp only [EF.mul_fin_fin, EF.add_pinf_fin] at hmn hmx
    have hmx' := EF.pinf_le_elim hmx
    have hmnn := EF.le_left_ne_nan hmn
    left
    refine ⟨?_, ?_, ?_, Or.inr (Or.inl rfl)⟩
    · intro t
      unfold axC
      rw [Bool.and_eq_true]
      simp only [EF.mul_fin_fin, EF.add_pinf_fin]
      exact ⟨EF.le_pinf_right hmnn, by rw [hmx']; rfl⟩
    · rcases lt_trichotomy d 0 with hd | hd | hd
      · rw [nearVal_neg hd, hmx']
        simp
      · subst hd
        rw [nearVal_zero]
        rcases mn with _ | _ | mnq | _
        · exact absurd rfl hmnn
        · rw [EF.sub_ninf_pinf, EF.mul_ninf_pinf]; left; rfl
        · rw [EF.sub_fin_pinf, EF.mul_ninf_pinf]; left; rfl
        · simp
      · rw [nearVal_pos hd]
        rcases mn with _ | _ | mnq | _
        · exact absurd rfl hmnn
        · rw [EF.sub_ninf_pinf, EF.mul_ninf_fin_pos (one_div_pos.mpr hd)]
          left; rfl
        · rw [EF.sub_fin_pinf, EF.mul_ninf_fin_pos (one_div_pos.mpr hd)]
          left; rfl
        · simp
    · rcases lt_trichotomy d 0 with hd | hd | hd
      · rw [farVal_neg hd]
        rcases mn with _ | _ | mnq | _
        · exact absurd rfl hmnn
        · rw [EF.sub_ninf_pinf, EF.mul_ninf_fin_neg (one_div_neg.mpr hd)]
          left; rfl
        · rw [EF.sub_fin_pinf, EF.mul_ninf_fin_neg (one_div_neg.mpr hd)]
          left; rfl
        · simp
      · subst hd
        rw [farVal_zero, hmx']
        simp
      · rw [farVal_pos hd, hmx']
        simp

theorem low_of_le {t : ℚ} {e : EF} (h : le e (fin t) = true) : lowShape t e := by
  rcases EF.le_fin_elim h with h | ⟨p, hp, hle⟩
  · exact Or.inl h
  · exact Or.inr (Or.inr ⟨p, hp, hle⟩)

theorem high_of_le {t : ℚ} {e : EF} (h : le (fin t) e = true) : highShape t e := by
  rcases EF.fin_le_elim h with h | ⟨p, hp, hle⟩
  · exact Or.inl h
  · exact Or.inr (Or.inr ⟨p, hp, hle⟩)

theorem low_of_triv {t : ℚ} {e : EF} (h : e = ninf ∨ e = nan) : lowShape t e := by
  rcases h with h | h
  · exact Or.inl h
  · exact Or.inr (Or.inl h)

theorem high_of_triv {t : ℚ} {e : EF} (h : e = pinf ∨ e = nan) : highShape t e := by
  rcases h with h | h
  · exact Or.inl h
  · exact Or.inr (Or.inl h)

/-- No false negatives of the sign-indexed slab test for a finite box,
finite origin and finite direction, as long as the x axis does not hit
the one degenerate NaN case (direction.x = 0 with origin.x exactly on
the max.x plane). -/
theorem does_true_of_exists
    (mnx mny mnz mxx mxy mxz ox oy oz dx dy dz : ℚ)
    (hxcase : ¬(dx = 0 ∧ ox = mxx))
    (hex : ∃ t : ℚ, 0 < t ∧
      AABB.contains ⟨⟨fin mnx, fin mny, fin mnz⟩, ⟨fin mxx, fin mxy, fin mxz⟩⟩
        (Ray.point_at ⟨⟨fin ox, fin oy, fin oz⟩, ⟨fin dx, fin dy, fin dz⟩⟩ t) = true) :
    AABB.does_intersect
      ⟨⟨fin mnx, fin mny, fin mnz⟩, ⟨fin mxx, fin mxy, fin mxz⟩⟩
      ⟨⟨fin ox, fin oy, fin oz⟩, ⟨fin dx, fin dy, fin dz⟩⟩ = true := by
  obtain ⟨t, ht, hc⟩ := hex
  rw [contains_point_at] at hc
  rw [Bool.and_eq_true, Bool.and_eq_true] at hc
  obtain ⟨⟨hcx, hcy⟩, hcz⟩ := hc
  rw [does_eq_core]
  have hx : lowShape t (nearVal (fin mnx) (fin mxx) (fin ox) (fin dx)) ∧
      highShape t (farVal (fin mnx) (fin mxx) (fin ox) (fin dx)) ∧
      farVal (fin mnx) (fin mxx) (fin ox) (fin dx) ≠ nan := by
    rcases axis_shape hcx with ⟨hall, hnear, hfar, hcond⟩ | ⟨hall, hnear, hfar⟩
    · rcases hcond with h | h | h
      · exact absurd h (by simp)
      · exact absurd h (by simp)
      · have hoxmx : ox ≠ mxx := fun he => hxcase ⟨h, he⟩
        subst h
        have hle : ox ≤ mxx := by
          unfold axC at hcx
          rw [Bool.and_eq_true] at hcx
          have := hcx.2
          simp only [EF.mul_fin_fin, EF.add_fin_fin, mul_zero, add_zero,
            le_fin_fin, decide_eq_true_eq] at this
          exact this
        have hpos : 0 < mxx - ox := by
          rcases lt_or_eq_of_le hle with h | h
          · linarith
          · exact absurd h hoxmx
        rw [farVal_zero, EF.sub_fin_fin, EF.mul_fin_pinf_pos hpos]
        exact ⟨low_of_triv hnear, Or.inl rfl, by simp⟩
    · exact ⟨low_of_le hnear, high_of_le hfar, EF.le_right_ne_nan hfar⟩
  have hy : lowShape t (nearVal (fin mny) (fin mxy) (fin oy) (fin dy)) ∧
      highShape t (farVal (fin mny) (fin mxy) (fin oy) (fin dy)) := by
    rcases axis_shape hcy with ⟨hall, hnear, hfar, hcond⟩ | ⟨hall, hnear, hfar⟩
    · exact ⟨low_of_triv hnear, high_of_triv hfar⟩
    · exact ⟨low_of_le hnear, high_of_le hfar⟩
  have hz : lowShape t (nearVal (fin mnz) (fin mxz) (fin oz) (fin dz)) ∧
      highShape t (farVal (fin mnz) (fin mxz) (fin oz) (fin dz)) := by
    rcases axis_shape hcz with ⟨hall, hnear, hfar, hcond⟩ | ⟨hall, hnear, hfar⟩
    · exact ⟨low_of_triv hnear, high_of_triv hfar⟩
    · exact ⟨low_of_le hnear, high_of_le hfar⟩
  exact doesCore_true ht hx.1 hx.2.1 hx.2.2 hy.1 hy.2 hz.1 hz.2

/-- The finite value of a modelled f32, defaulting to 1 on the special
values; used to pick a positive parameter below all relevant far slab
values. -/
def finOr1 : EF → ℚ
  | fin q => q
  | _ => 1

theorem finOr1_pos {e : EF} (h : e = nan ∨ lt (fin 0) e = true) : 0 < finOr1 e := by
  rcases e with _ | _ | q | _
  · exact one_pos
  · rcases h with h | h
    · exact absurd h (by simp)
    · exact absurd h (by simp)
  · rcases h with h | h
    · exact absurd h (by simp)
    · simp only [lt_fin_fin, decide_eq_true_eq] at h
      exact h
  · exact one_pos

/-- Behind-the-origin rejection of the sign-indexed slab test for any box
and any ray with finite direction components: if some parameter puts the
ray point inside the box but no positive parameter does, the test
reports a miss. -/
theorem does_false_of_behind
    (b : AABB) (ox oy oz : EF) (dx dy dz : ℚ)
    (hne : ∃ t : ℚ, AABB.contains b
      (Ray.point_at ⟨⟨ox, oy, oz⟩, ⟨fin dx, fin dy, fin dz⟩⟩ t) = true)
    (hbehind : ∀ t : ℚ, 0 < t → AABB.contains b
      (Ray.point_at ⟨⟨ox, oy, oz⟩, ⟨fin dx, fin dy, fin dz⟩⟩ t) = false) :
    AABB.does_intersect b ⟨⟨ox, oy, oz⟩, ⟨fin dx, fin dy, fin dz⟩⟩ = false := by
  obtain ⟨t0, hc0⟩ := hne
  by_cases ht0 : 0 < t0
  · rw [hbehind t0 ht0] at hc0
    exact absurd hc0 (by simp)
  push_neg at ht0
  cases hdoes : AABB.does_intersect b ⟨⟨ox, oy, oz⟩, ⟨fin dx, fin dy, fin dz⟩⟩
  · rfl
  exfalso
  rw [does_eq_core] at hdoes
  rw [contains_point_at] at hc0
  rw [Bool.and_eq_true, Bool.and_eq_true] at hc0
  obtain ⟨⟨hcx, hcy⟩, hcz⟩ := hc0
  obtain ⟨hfxn, hfx0, hfy0, hfz0⟩ := doesCore_high hdoes
  set fx := farVal b.min.x b.max.x ox (fin dx) with hfx
  set fy := farVal b.min.y b.max.y oy (fin dy) with hfy
  set fz := farVal b.min.z b.max.z oz (fin dz) with hfz
  have hgx : 0 < finOr1 fx := finOr1_pos (Or.inr hfx0)
  have hgy : 0 < finOr1 fy := by
    by_cases h : fy = nan
    · exact finOr1_pos (Or.inl h)
    · exact finOr1_pos (Or.inr (hfy0 h))
  have hgz : 0 < finOr1 fz := by
    by_cases h : fz = nan
    · exact finOr1_pos (Or.inl h)
    · exact finOr1_pos (Or.inr (hfz0 h))
  set ts := min 1 (min (finOr1 fx) (min (finOr1 fy) (finOr1 fz))) with hts
  have htspos : 0 < ts := by
    apply lt_min one_pos
    apply lt_min hgx
    exact lt_min hgy hgz
  have hts_le_x : ts ≤ finOr1 fx :=
    le_trans (min_le_right _ _) (min_le_left _ _)
  have hts_le_y : ts ≤ finOr1 fy :=
    le_trans (min_le_right _ _)
      (le_trans (min_le_right _ _) (min_le_left _ _))
  have hts_le_z : ts ≤ finOr1 fz :=
    le_trans (min_le_right _ _)
      (le_trans (min_le_right _ _) (min_le_right _ _))
  have ht0ts : t0 ≤ ts := le_trans ht0 (le_of_lt htspos)
  have haxis : ∀ (mn mx o : EF) (d : ℚ) (f : EF),
      f = farVal mn mx o (fin d) →
      axC mn mx o (fin d) t0 = true → ts ≤ finOr1 f →
      axC mn mx o (fin d) ts = true := by
    intro mn mx o d f hfdef hax htsle
    rcases axis_shape hax with ⟨hall, _, _, _⟩ | ⟨hall, hnear, hfar⟩
    · exact hall ts
    · refine hall ts (EF.le_fin_mono hnear ht0ts) ?_
      rw [← hfdef] at hfar ⊢
      rcases EF.fin_le_elim hfar with hE | ⟨p, hp, _⟩
      · rw [hE]; rfl
      · rw [hp]
        rw [hp] at htsle
        simp only [le_fin_fin, decide_eq_true_eq]
        simpa [finOr1] using htsle
  have hcx' := haxis _ _ _ _ fx hfx hcx hts_le_x
  have hcy' := haxis _ _ _ _ fy hfy hcy hts_le_y
  have hcz' := haxis _ _ _ _ fz hfz hcz hts_le_z
  have : AABB.contains b
      (Ray.point_at ⟨⟨ox, oy, oz⟩, ⟨fin dx, fin dy, fin dz⟩⟩ ts) = true := by
    rw [contains_point_at, Bool.and_eq_true, Bool.and_eq_true]
    exact ⟨⟨hcx', hcy'⟩, hcz'⟩
  rw [hbehind ts htspos] at this
  exact absurd this (by simp)

/-- The entry value of one axis slab as computed by intersection. -/
def slabEntry (mn mx o d : EF) : EF :=
  rmin (mul (sub mn o) (inv d)) (mul (sub mx o) (inv d))

/-- The exit value of one axis slab as computed by intersection. -/
def slabExit (mn mx o d : EF) : EF :=
  rmax (mul (sub mn o) (inv d)) (mul (sub mx o) (inv d))

theorem intersection_eq (b : AABB) (r : Ray) :
    AABB.intersection b r =
      (if (lt (rmax (rmax (slabEntry b.min.x b.max.x r.origin.x r.direction.x)
                          (slabEntry b.min.y b.max.y r.origin.y r.direction.y))
                    (slabEntry b.min.z b.max.z r.origin.z r.direction.z))
              (rmin (rmin (slabExit b.min.x b.max.x r.origin.x r.direction.x)
                          (slabExit b.min.y b.max.y r.origin.y r.direction.y))
                    (slabExit b.min.z b.max.z r.origin.z r.direction.z)) &&
           lt (fin 0)
              (rmin (rmin (slabExit b.min.x b.max.x r.origin.x r.direction.x)
                          (slabExit b.min.y b.max.y r.origin.y r.direction.y))
                    (slabExit b.min.z b.max.z r.origin.z r.direction.z))) = true
       then RaycastResult.Hit
              (rmax (rmax (slabEntry b.min.x b.max.x r.origin.x r.direction.x)
                          (slabEntry b.min.y b.max.y r.origin.y r.direction.y))
                    (slabEntry b.min.z b.max.z r.origin.z r.direction.z))
       else RaycastResult.Miss) := rfl

theorem slabEntry_fin {mn mx o d : ℚ} (hd : d ≠ 0) :
    slabEntry (fin mn) (fin mx) (fin o) (fin d) =
      fin (min ((mn - o) * (1 / d)) ((mx - o) * (1 / d))) := by
  unfold slabEntry
  rw [EF.inv_fin hd, EF.sub_fin_fin, EF.sub_fin_fin, EF.mul_fin_fin,
    EF.mul_fin_fin, EF.rmin_fin]

theorem slabExit_fin {mn mx o d : ℚ} (hd : d ≠ 0) :
    slabExit (fin mn) (fin mx) (fin o) (fin d) =
      fin (max ((mn - o) * (1 / d)) ((mx - o) * (1 / d))) := by
  unfold slabExit
  rw [EF.inv_fin hd, EF.sub_fin_fin, EF.sub_fin_fin, EF.mul_fin_fin,
    EF.mul_fin_fin, EF.rmax_fin]

theorem axC_of_between {mn mx o d : ℚ} (hd : d ≠ 0) (hv : mn ≤ mx) (t : ℚ)
    (h1 : min ((mn - o) * (1 / d)) ((mx - o) * (1 / d)) ≤ t)
    (h2 : t ≤ max ((mn - o) * (1 / d)) ((mx - o) * (1 / d))) :
    axC (fin mn) (fin mx) (fin o) (fin d) t = true := by
  unfold axC
  rw [Bool.and_eq_true]
  simp only [EF.mul_fin_fin, EF.add_fin_fin, le_fin_fin, decide_eq_true_eq]
  rcases hd.lt_or_lt with hneg | hpos
  · have hle : (mx - o) * (1 / d) ≤ (mn - o) * (1 / d) := by
      apply mul_le_mul_of_nonpos_right (by linarith)
      exact le_of_lt (one_div_neg.mpr hneg)
    rw [min_eq_right hle] at h1
    rw [max_eq_left hle] at h2
    exact ⟨(div_cond_ge_neg hneg).mp h2, (div_cond_le_neg hneg).mp h1⟩
  · have hle : (mn - o) * (1 / d) ≤ (mx - o) * (1 / d) := by
      apply mul_le_mul_of_nonneg_right (by linarith)
      exact le_of_lt (one_div_pos.mpr hpos)
    rw [min_eq_left hle] at h1
    rw [max_eq_right hle] at h2
    exact ⟨(div_cond_le hpos).mp h1, (div_cond_ge hpos).mp h2⟩

/-- A hit of the full entry/exit intersection computation yields a
positive parameter whose ray point is contained in the box, for a finite
valid box, finite origin and finite nonzero direction components. -/
theorem exists_pos_of_hit
    (mnx mny mnz mxx mxy mxz ox oy oz dx dy dz : ℚ)
    (hvx : mnx ≤ mxx) (hvy : mny ≤ mxy) (hvz : mnz ≤ mxz)
    (hdx : dx ≠ 0) (hdy : dy ≠ 0) (hdz : dz ≠ 0)
    (hhit : AABB.intersection
      ⟨⟨fin mnx, fin mny, fin mnz⟩, ⟨fin mxx, fin mxy, fin mxz⟩⟩
      ⟨⟨fin ox, fin oy, fin oz⟩, ⟨fin dx, fin dy, fin dz⟩⟩ ≠
        RaycastResult.Miss) :
    ∃ t : ℚ, 0 < t ∧
      AABB.contains ⟨⟨fin mnx, fin mny, fin mnz⟩, ⟨fin mxx, fin mxy, fin mxz⟩⟩
        (Ray.point_at ⟨⟨fin ox, fin oy, fin oz⟩, ⟨fin dx, fin dy, fin dz⟩⟩ t)
          = true := by
  rw [intersection_eq] at hhit
  simp only [slabEntry_fin hdx, slabEntry_fin hdy, slabEntry_fin hdz,
    slabExit_fin hdx, slabExit_fin hdy, slabExit_fin hdz,
    EF.rmax_fin, EF.rmin_fin, lt_fin_fin] at hhit
  by_cases hcond : (decide
      (max (max (min ((mnx - ox) * (1 / dx)) ((mxx - ox) * (1 / dx)))
                (min ((mny - oy) * (1 / dy)) ((mxy - oy) * (1 / dy))))
           (min ((mnz - oz) * (1 / dz)) ((mxz - oz) * (1 / dz))) <
       min (min (max ((mnx - ox) * (1 / dx)) ((mxx - ox) * (1 / dx)))
                (max ((mny - oy) * (1 / dy)) ((mxy - oy) * (1 / dy))))
           (max ((mnz - oz) * (1 / dz)) ((mxz - oz) * (1 / dz)))) &&
     decide (0 <
       min (min (max ((mnx - ox) * (1 / dx)) ((mxx - ox) * (1 / dx)))
                (max ((mny - oy) * (1 / dy)) ((mxy - oy) * (1 / dy))))
           (max ((mnz - oz) * (1 / dz)) ((mxz - oz) * (1 / dz))))) = true
  · rw [Bool.and_eq_true, decide_eq_true_eq, decide_eq_true_eq] at hcond
    obtain ⟨hLE, hE0⟩ := hcond
    set eX := min ((mnx - ox) * (1 / dx)) ((mxx - ox) * (1 / dx)) with heX
    set eY := min ((mny - oy) * (1 / dy)) ((mxy - oy) * (1 / dy)) with heY
    set eZ := min ((mnz - oz) * (1 / dz)) ((mxz - oz) * (1 / dz)) with heZ
    set xX := max ((mnx - ox) * (1 / dx)) ((mxx - ox) * (1 / dx)) with hxX
    set xY := max ((mny - oy) * (1 / dy)) ((mxy - oy) * (1 / dy)) with hxY
    set xZ := max ((mnz - oz) * (1 / dz)) ((mxz - oz) * (1 / dz)) with hxZ
    set L := max (max eX eY) eZ with hL
    set E := min (min xX xY) xZ with hE
    have hLt : max L 0 < E := max_lt hLE hE0
    have hlow : L < (max L 0 + E) / 2 := by
      have := le_max_left L 0
      linarith
    have hhigh : (max L 0 + E) / 2 < E := by linarith
    refine ⟨(max L 0 + E) / 2, ?_, ?_⟩
    · have h0 : (0:ℚ) ≤ max L 0 := le_max_right _ _
      linarith
    rw [contains_point_at, Bool.and_eq_true, Bool.and_eq_true]
    refine ⟨⟨?_, ?_⟩, ?_⟩
    · apply axC_of_between hdx hvx
      · calc eX ≤ L := le_trans (le_max_left _ _) (le_max_left _ _)
          _ ≤ (max L 0 + E) / 2 := le_of_lt hlow
      · calc (max L 0 + E) / 2 ≤ E := le_of_lt hhigh
          _ ≤ xX := le_trans (min_le_left _ _) (min_le_left _ _)
    · apply axC_of_between hdy hvy
      · calc eY ≤ L := le_trans (le_max_right _ _) (le_max_left _ _)
          _ ≤ (max L 0 + E) / 2 := le_of_lt hlow
      · calc (max L 0 + E) / 2 ≤ E := le_of_lt hhigh
          _ ≤ xY := le_trans (min_le_left _ _) (min_le_right _ _)
    · apply axC_of_between hdz hvz
      · calc eZ ≤ L := le_max_right _ _
          _ ≤ (max L 0 + E) / 2 := le_of_lt hlow
      · calc (max L 0 + E) / 2 ≤ E := le_of_lt hhigh
          _ ≤ xZ := min_le_right _ _
  · rw [Bool.not_eq_true] at hcond
    rw [hcond] at hhit
    simp at hhit

namespace EF

theorem fin_lt_elim {e : EF} {q : ℚ} (h : lt (fin q) e = true) :
    e = pinf ∨ ∃ p, e = fin p ∧ q < p := by
  cases e <;> simp_all [lt]

end EF

/-- The extent of a box along a given axis. -/
def sizeAlong (b : AABB) : Axis → EF
  | Axis.X => b.size.x
  | Axis.Y => b.size.y
  | Axis.Z => b.size.z

theorem valid_axis_join {amn amx bmn bmx : EF}
    (ha : le amn amx = true) (hb : le bmn bmx = true) :
    le (rmin amn bmn) (rmax amx bmx) = true := by
  rcases EF.rmin_cases amn bmn with h | h <;> rw [h]
  · exact EF.le_trans ha (EF.le_rmax_left (EF.le_right_ne_nan ha))
  · exact EF.le_trans hb
      (EF.le_rmax_right (EF.le_right_ne_nan ha) (EF.le_right_ne_nan hb))

theorem valid_axis_grow {amn amx : EF} {p : ℚ} (h : le amn amx = true) :
    le (rmin amn (fin p)) (rmax amx (fin p)) = true := by
  rcases EF.rmin_cases amn (fin p) with hc | hc <;> rw [hc]
  · exact EF.le_trans h (EF.le_rmax_left (EF.le_right_ne_nan h))
  · exact EF.le_rmax_right (EF.le_right_ne_nan h) (by simp)

theorem join_empty_left {b : AABB} (hb : b.validB = true) :
    AABB.empty.join b = b := by
  rcases b with ⟨⟨b1, b2, b3⟩, ⟨b4, b5, b6⟩⟩
  unfold AABB.validB at hb
  rw [Bool.and_eq_true, Bool.and_eq_true] at hb
  obtain ⟨⟨h1, h2⟩, h3⟩ := hb
  unfold AABB.join AABB.empty AABB.with_bounds
  simp only
  rw [EF.rmin_pinf_left (EF.le_left_ne_nan h1),
    EF.rmin_pinf_left (EF.le_left_ne_nan h2),
    EF.rmin_pinf_left (EF.le_left_ne_nan h3),
    EF.rmax_ninf_left (EF.le_right_ne_nan h1),
    EF.rmax_ninf_left (EF.le_right_ne_nan h2),
    EF.rmax_ninf_left (EF.le_right_ne_nan h3)]

theorem join_empty_right {b : AABB} (hb : b.validB = true) :
    b.join AABB.empty = b := by
  rcases b with ⟨⟨b1, b2, b3⟩, ⟨b4, b5, b6⟩⟩
  unfold AABB.validB at hb
  rw [Bool.and_eq_true, Bool.and_eq_true] at hb
  obtain ⟨⟨h1, h2⟩, h3⟩ := hb
  unfold AABB.join AABB.empty AABB.with_bounds
  simp only
  rw [EF.rmin_pinf_right (EF.le_left_ne_nan h1),
    EF.rmin_pinf_right (EF.le_left_ne_nan h2),
    EF.rmin_pinf_right (EF.le_left_ne_nan h3),
    EF.rmax_ninf_right (EF.le_right_ne_nan h1),
    EF.rmax_ninf_right (EF.le_right_ne_nan h2),
    EF.rmax_ninf_right (EF.le_right_ne_nan h3)]

theorem join_empty_empty : AABB.empty.join AABB.empty = AABB.empty := rfl

theorem valid_join {a b : AABB} (ha : a.validB = true) (hb : b.validB = true) :
    (a.join b).validB = true := by
  unfold AABB.validB at ha hb ⊢
  rw [Bool.and_eq_true, Bool.and_eq_true] at ha hb ⊢
  obtain ⟨⟨ha1, ha2⟩, ha3⟩ := ha
  obtain ⟨⟨hb1, hb2⟩, hb3⟩ := hb
  exact ⟨⟨valid_axis_join ha1 hb1, valid_axis_join ha2 hb2⟩,
    valid_axis_join ha3 hb3⟩

theorem valid_grow {a : AABB} {px py pz : ℚ} (ha : a.validB = true) :
    (a.grow ⟨fin px, fin py, fin pz⟩).validB = true := by
  unfold AABB.validB at ha ⊢
  rw [Bool.and_eq_true, Bool.and_eq_true] at ha ⊢
  obtain ⟨⟨ha1, ha2⟩, ha3⟩ := ha
  exact ⟨⟨valid_axis_grow ha1, valid_axis_grow ha2⟩, valid_axis_grow ha3⟩

theorem grow_empty (px py pz : ℚ) :
    (AABB.empty.grow ⟨fin px, fin py, fin pz⟩).validB = true := by
  unfold AABB.empty AABB.grow AABB.with_bounds AABB.validB
  simp

theorem approx_axis {mn mx : EF} {p : ℚ} {eps : EF}
    (heps : lt (fin 0) eps = true)
    (h1 : le mn (fin p) = true) (h2 : le (fin p) mx = true) :
    lt (neg eps) (sub (fin p) mn) = true ∧ lt (sub (fin p) mx) eps = true := by
  rcases EF.fin_lt_elim heps with hepsE | ⟨e, hepsE, he⟩ <;> subst hepsE
  · constructor
    · rcases EF.le_fin_elim h1 with hE | ⟨m, hm, hle⟩
      · subst hE; rfl
      · subst hm; rfl
    · rcases EF.fin_le_elim h2 with hE | ⟨m, hm, hle⟩
      · subst hE; rfl
      · subst hm; rfl
  · constructor
    · rcases EF.le_fin_elim h1 with hE | ⟨m, hm, hle⟩
      · subst hE; rfl
      · subst hm
        simp only [EF.neg_fin, EF.sub_fin_fin, lt_fin_fin, decide_eq_true_eq]
        linarith
    · rcases EF.fin_le_elim h2 with hE | ⟨m, hm, hle⟩
      · subst hE; rfl
      · subst hm
        simp only [EF.sub_fin_fin, lt_fin_fin, decide_eq_true_eq]
        linarith

/-- C5: the empty AABB is the identity element for join: for every AABB
with finite coordinates, join(empty, b) = b and join(b, empty) = b, with
componentwise equality of the corners. -/
theorem C5_empty_identity_for_join (mnx mny mnz mxx mxy mxz : ℚ) :
    AABB.empty.join ⟨⟨fin mnx, fin mny, fin mnz⟩, ⟨fin mxx, fin mxy, fin mxz⟩⟩ =
      ⟨⟨fin mnx, fin mny, fin mnz⟩, ⟨fin mxx, fin mxy, fin mxz⟩⟩ ∧
    AABB.join ⟨⟨fin mnx, fin mny, fin mnz⟩, ⟨fin mxx, fin mxy, fin mxz⟩⟩
      AABB.empty =
      ⟨⟨fin mnx, fin mny, fin mnz⟩, ⟨fin mxx, fin mxy, fin mxz⟩⟩ := by
  constructor <;> simp [AABB.join, AABB.empty, AABB.with_bounds]

/-- C6: the empty AABB contains no point whatsoever, NaN and infinite
coordinates included. -/
theorem C6_empty_contains_nothing (p : Point3) :
    AABB.empty.contains p = false := by
  rcases p with ⟨px, py, pz⟩
  rcases px with _ | _ | q | _ <;> simp [AABB.contains, AABB.empty, EF.le]

/-- C9: indexing an AABB is total: index 0 yields the min corner and
every index greater or equal to 1 yields the max corner. -/
theorem C9_index_total (b : AABB) (i : ℕ) :
    b.index 0 = b.min ∧ (1 ≤ i → b.index i = b.max) := by
  constructor
  · rfl
  · intro hi
    have : i ≠ 0 := by omega
    simp [AABB.index, this]

/-- C9 witness: index evaluated at the concrete index 5 of a concrete
box yields the max corner. -/
theorem C9_witness :
    (1 ≤ 5) ∧
      (AABB.index ⟨⟨fin 0, fin 0, fin 0⟩, ⟨fin 1, fin 2, fin 3⟩⟩ 5 =
        ⟨fin 1, fin 2, fin 3⟩) :=
  ⟨by norm_num,
    (C9_index_total ⟨⟨fin 0, fin 0, fin 0⟩, ⟨fin 1, fin 2, fin 3⟩⟩ 5).2
      (by norm_num)⟩

/-- C10: the approximate containment test weakens the exact one: for a
point with finite coordinates and any positive epsilon, containment
implies approximate containment. -/
theorem C10_contains_implies_approx (b : AABB) (px py pz : ℚ) (eps : EF)
    (heps : lt (fin 0) eps = true)
    (hc : b.contains ⟨fin px, fin py, fin pz⟩ = true) :
    b.approx_contains_eps ⟨fin px, fin py, fin pz⟩ eps = true := by
  unfold AABB.contains at hc
  simp only [Bool.and_eq_true] at hc
  obtain ⟨⟨⟨⟨⟨h1, h2⟩, h3⟩, h4⟩, h5⟩, h6⟩ := hc
  unfold AABB.approx_contains_eps
  simp only [Bool.and_eq_true]
  exact ⟨⟨⟨⟨⟨(approx_axis heps h1 h2).1, (approx_axis heps h1 h2).2⟩,
    (approx_axis heps h3 h4).1⟩, (approx_axis heps h3 h4).2⟩,
    (approx_axis heps h5 h6).1⟩, (approx_axis heps h5 h6).2⟩

/-- C10 witness: containment and approximate containment evaluated on a
concrete box, point and epsilon. -/
theorem C10_witness :
    AABB.approx_contains_eps ⟨⟨fin 0, fin 0, fin 0⟩, ⟨fin 1, fin 1, fin 1⟩⟩
      ⟨fin (1/2), fin (1/2), fin (1/2)⟩ (fin (1/100)) = true :=
  C10_contains_implies_approx
    ⟨⟨fin 0, fin 0, fin 0⟩, ⟨fin 1, fin 1, fin 1⟩⟩ (1/2) (1/2) (1/2)
    (fin (1/100))
    (by norm_num)
    (by norm_num [AABB.contains])

/-- Flat box in x (min.x = max.x = 0) used by the C1 counterexample. -/
def C1box : AABB := ⟨⟨fin 0, fin 0, fin 0⟩, ⟨fin 0, fin 1, fin 1⟩⟩

/-- Ray lying in the plane of C1box (direction.x = 0, origin.x on the
max.x plane) used by the C1 counterexample. -/
def C1ray : Ray := ⟨⟨fin 0, fin (-1), fin (1/2)⟩, ⟨fin 0, fin 1, fin 0⟩⟩

/-- C1 counterexample: a valid flat box with finite coordinates and a
ray with finite origin and finite nonzero direction whose point at the
positive parameter 3/2 is contained in the box, yet does_intersect
returns false: the slab product (max.x - origin.x) * (1/direction.x) is
0 * infinity = NaN, every later comparison on NaN is false, and the test
ends on NaN > 0 which is false. -/
theorem C1_counterexample :
    AABB.validB C1box = true ∧
    (∃ t : ℚ, 0 < t ∧ AABB.contains C1box (Ray.point_at C1ray t) = true) ∧
    AABB.does_intersect C1box C1ray = false := by
  refine ⟨by norm_num [C1box, AABB.validB, EF.le], ⟨3/2, by norm_num, ?_⟩, ?_⟩
  · norm_num [C1box, C1ray, AABB.contains, Ray.point_at, EF.mul, EF.add, EF.le]
  · norm_num [C1box, C1ray, AABB.does_intersect, AABB.index, Ray.sign_x,
      Ray.sign_y, Ray.sign_z, Ray.inv_direction, EF.mul, EF.add, EF.sub,
      EF.neg, EF.inv, EF.le, EF.lt]

/-- C1 (amended): no false negatives of the ray-box bound test, for a
finite AABB with min <= max on each axis and a ray with finite origin
and finite nonzero direction, excluding the one degenerate case forced
by the counterexample (direction.x = 0 with origin.x exactly equal to
max.x, where the slab arithmetic produces NaN): if some ray parameter
t > 0 puts the point origin + t * direction inside the AABB in the sense
of contains, then does_intersect returns true. -/
theorem C1_no_false_negatives
    (mnx mny mnz mxx mxy mxz ox oy oz dx dy dz : ℚ)
    (hvx : mnx ≤ mxx) (hvy : mny ≤ mxy) (hvz : mnz ≤ mxz)
    (hdir : ¬(dx = 0 ∧ dy = 0 ∧ dz = 0))
    (hdeg : ¬(dx = 0 ∧ ox = mxx))
    (hex : ∃ t : ℚ, 0 < t ∧
      AABB.contains ⟨⟨fin mnx, fin mny, fin mnz⟩, ⟨fin mxx, fin mxy, fin mxz⟩⟩
        (Ray.point_at ⟨⟨fin ox, fin oy, fin oz⟩, ⟨fin dx, fin dy, fin dz⟩⟩ t)
          = true) :
    AABB.does_intersect
      ⟨⟨fin mnx, fin mny, fin mnz⟩, ⟨fin mxx, fin mxy, fin mxz⟩⟩
      ⟨⟨fin ox, fin oy, fin oz⟩, ⟨fin dx, fin dy, fin dz⟩⟩ = true :=
  does_true_of_exists mnx mny mnz mxx mxy mxz ox oy oz dx dy dz hdeg hex

/-- C1 witness: the amended theorem applied to the unit box and a ray
entering it from the left. -/
theorem C1_witness :
    AABB.does_intersect ⟨⟨fin 0, fin 0, fin 0⟩, ⟨fin 1, fin 1, fin 1⟩⟩
      ⟨⟨fin (-1), fin (1/2), fin (1/2)⟩, ⟨fin 1, fin 0, fin 0⟩⟩ = true :=
  C1_no_false_negatives 0 0 0 1 1 1 (-1) (1/2) (1/2) 1 0 0
    (by norm_num) (by norm_num) (by norm_num)
    (by norm_num) (by norm_num)
    ⟨3/2, by norm_num,
      by norm_num [AABB.contains, Ray.point_at, EF.mul, EF.add, EF.le]⟩

/-- Box with an infinite max.y used by the C2 counterexample. -/
def C2box : AABB := ⟨⟨fin (-10), fin 0, fin (-10)⟩, ⟨fin 10, pinf, fin 10⟩⟩

/-- Ray with infinite origin.y and direction.y used by the C2
counterexample. -/
def C2ray : Ray := ⟨⟨fin 0, pinf, fin 0⟩, ⟨fin 1, ninf, fin 1⟩⟩

/-- C2 counterexample: with an infinite direction component the claim as
stated fails: the ray point is contained in the box at the parameter -1,
no positive parameter gives a contained point (the y coordinate is
infinity minus infinity, NaN, for every t > 0), yet does_intersect
returns true because the y axis contributes only NaN slab values, which
every comparison ignores. -/
theorem C2_counterexample :
    (∃ t : ℚ, AABB.contains C2box (Ray.point_at C2ray t) = true) ∧
    (∀ t : ℚ, 0 < t → AABB.contains C2box (Ray.point_at C2ray t) = false) ∧
    AABB.does_intersect C2box C2ray = true := by
  refine ⟨⟨-1, ?_⟩, ?_, ?_⟩
  · norm_num [C2box, C2ray, AABB.contains, Ray.point_at, EF.mul, EF.add, EF.le]
  · intro t ht
    have hm : mul (fin t) ninf = ninf := EF.mul_fin_ninf_pos ht
    simp [C2box, C2ray, AABB.contains, Ray.point_at, hm]
  · norm_num [C2box, C2ray, AABB.does_intersect, AABB.index, Ray.sign_x,
      Ray.sign_y, Ray.sign_z, Ray.inv_direction, EF.mul, EF.add, EF.sub,
      EF.neg, EF.inv, EF.le, EF.lt]

/-- C2 (amended): behind-the-origin rejection, for every AABB and every
ray whose direction components are finite (the restriction forced by the
counterexample): if the ray line meets the box at some parameter but at
no positive parameter (the whole intersection lies behind or at the ray
origin), then does_intersect returns false. -/
theorem C2_behind_origin
    (b : AABB) (ox oy oz : EF) (dx dy dz : ℚ)
    (hne : ∃ t : ℚ, AABB.contains b
      (Ray.point_at ⟨⟨ox, oy, oz⟩, ⟨fin dx, fin dy, fin dz⟩⟩ t) = true)
    (hbehind : ∀ t : ℚ, 0 < t → AABB.contains b
      (Ray.point_at ⟨⟨ox, oy, oz⟩, ⟨fin dx, fin dy, fin dz⟩⟩ t) = false) :
    AABB.does_intersect b ⟨⟨ox, oy, oz⟩, ⟨fin dx, fin dy, fin dz⟩⟩ = false :=
  does_false_of_behind b ox oy oz dx dy dz hne hbehind

/-- C2 witness: a box entirely behind the ray origin is rejected. -/
theorem C2_witness :
    AABB.does_intersect ⟨⟨fin (-2), fin (-2), fin (-2)⟩,
        ⟨fin (-1), fin (-1), fin (-1)⟩⟩
      ⟨⟨fin 0, fin 0, fin 0⟩, ⟨fin 1, fin 1, fin 1⟩⟩ = false :=
  C2_behind_origin ⟨⟨fin (-2), fin (-2), fin (-2)⟩,
      ⟨fin (-1), fin (-1), fin (-1)⟩⟩ (fin 0) (fin 0) (fin 0) 1 1 1
    ⟨-3/2,
      by norm_num [AABB.contains, Ray.point_at, EF.mul, EF.add, EF.le]⟩
    (by
      intro t ht
      have he : (0:ℚ) + t * 1 = t := by ring
      have hdec : decide (t ≤ (-1:ℚ)) = false := decide_eq_false (by linarith)
      simp only [AABB.contains, Ray.point_at, EF.mul_fin_fin, EF.add_fin_fin,
        le_fin_fin, one_mul, zero_add]
      simp [hdec])

/-- Flat box in x used by the C4 counterexample. -/
def C4box : AABB := ⟨⟨fin 0, fin 0, fin 0⟩, ⟨fin 0, fin 1, fin 1⟩⟩

/-- Diagonal ray grazing C4box used by the C4 counterexample. -/
def C4ray : Ray := ⟨⟨fin (-1), fin (-1/2), fin (-1/2)⟩, ⟨fin 1, fin 1, fin 1⟩⟩

/-- C4 counterexample: the two ray-box tests disagree on a boundary
tangent ray: the slab entry and exit parameters coincide (both 1), so
intersection, which requires a strictly positive-width overlap, reports
a miss, while does_intersect, whose rejection comparisons are strict,
returns true. -/
theorem C4_counterexample :
    AABB.does_intersect C4box C4ray = true ∧
    AABB.intersection C4box C4ray = RaycastResult.Miss := by
  constructor
  · norm_num [C4box, C4ray, AABB.does_intersect, AABB.index, Ray.sign_x,
      Ray.sign_y, Ray.sign_z, Ray.inv_direction, EF.mul, EF.add, EF.sub,
      EF.neg, EF.inv, EF.le, EF.lt]
  · norm_num [C4box, C4ray, AABB.intersection, Ray.inv_direction, EF.mul,
      EF.add, EF.sub, EF.neg, EF.inv, EF.le, EF.lt, EF.rmin, EF.rmax]

/-- C4 (amended): agreement of the two ray-box tests in one direction:
for a finite AABB with min <= max on each axis and a ray with finite
origin and finite nonzero direction components, whenever intersection
returns a hit (a non-Miss result), does_intersect returns true.  The
converse direction is refuted by the counterexample. -/
theorem C4_hit_implies_does
    (mnx mny mnz mxx mxy mxz ox oy oz dx dy dz : ℚ)
    (hvx : mnx ≤ mxx) (hvy : mny ≤ mxy) (hvz : mnz ≤ mxz)
    (hdx : dx ≠ 0) (hdy : dy ≠ 0) (hdz : dz ≠ 0)
    (hhit : AABB.intersection
      ⟨⟨fin mnx, fin mny, fin mnz⟩, ⟨fin mxx, fin mxy, fin mxz⟩⟩
      ⟨⟨fin ox, fin oy, fin oz⟩, ⟨fin dx, fin dy, fin dz⟩⟩ ≠
        RaycastResult.Miss) :
    AABB.does_intersect
      ⟨⟨fin mnx, fin mny, fin mnz⟩, ⟨fin mxx, fin mxy, fin mxz⟩⟩
      ⟨⟨fin ox, fin oy, fin oz⟩, ⟨fin dx, fin dy, fin dz⟩⟩ = true :=
  does_true_of_exists mnx mny mnz mxx mxy mxz ox oy oz dx dy dz
    (fun h => hdx h.1)
    (exists_pos_of_hit mnx mny mnz mxx mxy mxz ox oy oz dx dy dz
      hvx hvy hvz hdx hdy hdz hhit)

/-- C4 witness: the amended theorem applied to the unit box and a ray
that genuinely enters it. -/
theorem C4_witness :
    AABB.does_intersect ⟨⟨fin 0, fin 0, fin 0⟩, ⟨fin 1, fin 1, fin 1⟩⟩
      ⟨⟨fin (-1), fin (1/2), fin (1/2)⟩,
        ⟨fin 1, fin (1/10), fin (1/10)⟩⟩ = true :=
  C4_hit_implies_does 0 0 0 1 1 1 (-1) (1/2) (1/2) 1 (1/10) (1/10)
    (by norm_num) (by norm_num) (by norm_num)
    (by norm_num) (by norm_num) (by norm_num)
    (by
      norm_num [AABB.intersection, Ray.inv_direction, EF.mul, EF.add,
        EF.sub, EF.neg, EF.inv, EF.le, EF.lt, EF.rmin, EF.rmax]
      exact fun h => RaycastResult.noConfusion h)

/-- Box whose X and Y extents are equal and maximal, used by the C3
counterexample. -/
def C3box : AABB := ⟨⟨fin 0, fin 0, fin 0⟩, ⟨fin 2, fin 2, fin 1⟩⟩

/-- C3 counterexample: on a box whose X and Y extents are both 2 and
whose Z extent is 1, the X and Y extents tie for the maximum, but
largest_axis returns Axis.Y, not Axis.X as the claim states. -/
theorem C3_counterexample :
    (AABB.size C3box).x = (AABB.size C3box).y ∧
    lt (AABB.size C3box).z (AABB.size C3box).x = true ∧
    AABB.largest_axis C3box ≠ Axis.X := by
  refine ⟨?_, ?_, ?_⟩
  · norm_num [C3box, AABB.size, EF.sub, EF.neg, EF.add]
  · norm_num [C3box, AABB.size, EF.sub, EF.neg, EF.add, EF.lt]
  · norm_num [C3box, AABB.largest_axis, AABB.size, EF.sub, EF.neg, EF.add,
      EF.lt]
    decide

/-- C3 (amended): for a finite box, largest_axis returns an axis whose
extent attains the maximum extent, with ties resolved towards the later
axis in the order X, Y, Z; in particular, when the X and Y extents are
equal and both are strictly largest, it returns Axis.Y. -/
theorem C3_largest_axis (mnx mny mnz mxx mxy mxz : ℚ) :
    (le (AABB.size ⟨⟨fin mnx, fin mny, fin mnz⟩,
          ⟨fin mxx, fin mxy, fin mxz⟩⟩).x
        (sizeAlong ⟨⟨fin mnx, fin mny, fin mnz⟩, ⟨fin mxx, fin mxy, fin mxz⟩⟩
          (AABB.largest_axis ⟨⟨fin mnx, fin mny, fin mnz⟩,
            ⟨fin mxx, fin mxy, fin mxz⟩⟩)) = true ∧
     le (AABB.size ⟨⟨fin mnx, fin mny, fin mnz⟩,
          ⟨fin mxx, fin mxy, fin mxz⟩⟩).y
        (sizeAlong ⟨⟨fin mnx, fin mny, fin mnz⟩, ⟨fin mxx, fin mxy, fin mxz⟩⟩
          (AABB.largest_axis ⟨⟨fin mnx, fin mny, fin mnz⟩,
            ⟨fin mxx, fin mxy, fin mxz⟩⟩)) = true ∧
     le (AABB.size ⟨⟨fin mnx, fin mny, fin mnz⟩,
          ⟨fin mxx, fin mxy, fin mxz⟩⟩).z
        (sizeAlong ⟨⟨fin mnx, fin mny, fin mnz⟩, ⟨fin mxx, fin mxy, fin mxz⟩⟩
          (AABB.largest_axis ⟨⟨fin mnx, fin mny, fin mnz⟩,
            ⟨fin mxx, fin mxy, fin mxz⟩⟩)) = true) ∧
    ((AABB.size ⟨⟨fin mnx, fin mny, fin mnz⟩, ⟨fin mxx, fin mxy, fin mxz⟩⟩).x =
        (AABB.size ⟨⟨fin mnx, fin mny, fin mnz⟩,
          ⟨fin mxx, fin mxy, fin mxz⟩⟩).y ∧
      lt (AABB.size ⟨⟨fin mnx, fin mny, fin mnz⟩,
            ⟨fin mxx, fin mxy, fin mxz⟩⟩).z
         (AABB.size ⟨⟨fin mnx, fin mny, fin mnz⟩,
            ⟨fin mxx, fin mxy, fin mxz⟩⟩).x = true →
      AABB.largest_axis ⟨⟨fin mnx, fin mny, fin mnz⟩,
        ⟨fin mxx, fin mxy, fin mxz⟩⟩ = Axis.Y) := by
  refine ⟨⟨?_, ?_, ?_⟩, ?_⟩
  · by_cases h1 : mxy - mny < mxx - mnx <;>
      by_cases h2 : mxz - mnz < mxx - mnx <;>
        by_cases h3 : mxz - mnz < mxy - mny <;>
          simp [AABB.largest_axis, AABB.size, sizeAlong, h1, h2, h3] <;>
            linarith
  · by_cases h1 : mxy - mny < mxx - mnx <;>
      by_cases h2 : mxz - mnz < mxx - mnx <;>
        by_cases h3 : mxz - mnz < mxy - mny <;>
          simp [AABB.largest_axis, AABB.size, sizeAlong, h1, h2, h3] <;>
            linarith
  · by_cases h1 : mxy - mny < mxx - mnx <;>
      by_cases h2 : mxz - mnz < mxx - mnx <;>
        by_cases h3 : mxz - mnz < mxy - mny <;>
          simp [AABB.largest_axis, AABB.size, sizeAlong, h1, h2, h3] <;>
            linarith
  · intro hpair
    obtain ⟨heq, hlt⟩ := hpair
    simp only [AABB.size, EF.sub_fin_fin, EF.fin.injEq, lt_fin_fin,
      decide_eq_true_eq] at heq hlt
    have h1 : ¬(mxy - mny < mxx - mnx) := by linarith
    have h3 : mxz - mnz < mxy - mny := by linarith
    simp [AABB.largest_axis, AABB.size, h1, h3]

/-- C3 witness: the amended tie-break conclusion evaluated on the
counterexample box with equal maximal X and Y extents. -/
theorem C3_witness :
    AABB.largest_axis ⟨⟨fin 0, fin 0, fin 0⟩, ⟨fin 2, fin 2, fin 1⟩⟩ =
      Axis.Y :=
  (C3_largest_axis 0 0 0 2 2 1).2
    ⟨by norm_num [AABB.size, EF.sub, EF.neg, EF.add],
     by norm_num [AABB.size, EF.sub, EF.neg, EF.add, EF.lt]⟩

/-- C7: bound validity is preserved: if the AABB arguments are valid
(min <= max per axis) or the empty sentinel and the point argument is
finite, then join, grow, join_bounded produce a valid bound or the
sentinel, and the aabb() of a Point3 is valid. -/
theorem C7_validity_preserved (a b : AABB) (px py pz : ℚ)
    (ha : a.validB = true ∨ a = AABB.empty)
    (hb : b.validB = true ∨ b = AABB.empty) :
    ((a.join b).validB = true ∨ a.join b = AABB.empty) ∧
    ((a.grow ⟨fin px, fin py, fin pz⟩).validB = true ∨
      a.grow ⟨fin px, fin py, fin pz⟩ = AABB.empty) ∧
    ((a.join_bounded b).validB = true ∨ a.join_bounded b = AABB.empty) ∧
    (Point3.aabb ⟨fin px, fin py, fin pz⟩).validB = true := by
  have hjoin : (a.join b).validB = true ∨ a.join b = AABB.empty := by
    rcases ha with ha | ha <;> rcases hb with hb | hb
    · exact Or.inl (valid_join ha hb)
    · subst hb; rw [join_empty_right ha]; exact Or.inl ha
    · subst ha; rw [join_empty_left hb]; exact Or.inl hb
    · subst ha; subst hb; exact Or.inr join_empty_empty
  have hgrow : (a.grow ⟨fin px, fin py, fin pz⟩).validB = true := by
    rcases ha with ha | ha
    · exact valid_grow ha
    · subst ha; exact grow_empty px py pz
  have hjb : a.join_bounded b = a.join b := rfl
  have hpt : (Point3.aabb ⟨fin px, fin py, fin pz⟩).validB = true := by
    simp [Point3.aabb, AABB.with_bounds, AABB.validB]
  refine ⟨hjoin, Or.inl hgrow, ?_, hpt⟩
  rw [hjb]
  exact hjoin

/-- C7 witness: validity of the join of a concrete valid box with the
empty sentinel. -/
theorem C7_witness :
    ((AABB.join ⟨⟨fin 0, fin 0, fin 0⟩, ⟨fin 1, fin 1, fin 1⟩⟩
        AABB.empty).validB = true ∨
      AABB.join ⟨⟨fin 0, fin 0, fin 0⟩, ⟨fin 1, fin 1, fin 1⟩⟩ AABB.empty =
        AABB.empty) :=
  (C7_validity_preserved ⟨⟨fin 0, fin 0, fin 0⟩, ⟨fin 1, fin 1, fin 1⟩⟩
    AABB.empty 1 2 3
    (Or.inl (by norm_num [AABB.validB, EF.le]))
    (Or.inr rfl)).1

/-- Box with min.x = max.x = plus infinity, used by the C8
counterexample. -/
def C8box : AABB := ⟨⟨pinf, fin 0, fin 0⟩, ⟨pinf, fin 1, fin 1⟩⟩

/-- C8 counterexample: a box satisfying min <= max on every axis (with
an infinite x coordinate pair, as IEEE comparison inf <= inf holds) that
is not the empty sentinel, whose surface area is infinity minus infinity
times something, NaN, so the comparison 0 <= surface_area is false. -/
theorem C8_counterexample :
    AABB.validB C8box = true ∧ C8box ≠ AABB.empty ∧
    le (fin 0) (AABB.surface_area C8box) = false := by
  refine ⟨?_, ?_, ?_⟩
  · norm_num [C8box, AABB.validB, EF.le]
  · simp [C8box, AABB.empty]
  · norm_num [C8box, AABB.surface_area, AABB.size, EF.sub, EF.neg, EF.add,
      EF.mul, EF.le]

/-- C8 (amended): surface_area is nonnegative for the empty sentinel and
for every box with finite coordinates satisfying min <= max per axis
(the finiteness restriction is forced by the counterexample). -/
theorem C8_surface_area_nonneg :
    le (fin 0) (AABB.surface_area AABB.empty) = true ∧
    ∀ (mnx mny mnz mxx mxy mxz : ℚ), mnx ≤ mxx → mny ≤ mxy → mnz ≤ mxz →
      le (fin 0) (AABB.surface_area
        ⟨⟨fin mnx, fin mny, fin mnz⟩, ⟨fin mxx, fin mxy, fin mxz⟩⟩) = true := by
  constructor
  · norm_num [AABB.surface_area, AABB.size, AABB.empty, EF.sub, EF.neg,
      EF.add, EF.mul, EF.le]
  · intro mnx mny mnz mxx mxy mxz h1 h2 h3
    simp only [AABB.surface_area, AABB.size, EF.sub_fin_fin, EF.mul_fin_fin,
      EF.add_fin_fin, le_fin_fin, decide_eq_true_eq]
    have p1 := mul_nonneg (sub_nonneg.mpr h1) (sub_nonneg.mpr h2)
    have p2 := mul_nonneg (sub_nonneg.mpr h1) (sub_nonneg.mpr h3)
    have p3 := mul_nonneg (sub_nonneg.mpr h2) (sub_nonneg.mpr h3)
    linarith

/-- C8 witness: the nonnegativity conclusion evaluated on the unit
box. -/
theorem C8_witness :
    le (fin 0) (AABB.surface_area
      ⟨⟨fin 0, fin 0, fin 0⟩, ⟨fin 1, fin 1, fin 1⟩⟩) = true :=
  C8_surface_area_nonneg.2 0 0 0 1 1 1 (by norm_num) (by norm_num)
    (by norm_num)
